import Mathlib

/-!
Shallow embedding of the readiness-aggregation manager of egjs-imready
(src/src/ImReadyManager.ts) and proofs about its batch-milestone protocol.

Modelling conventions:
- DOM elements are opaque records carrying only the data the manager reads
  (a tag name for loader dispatch, and the loading-attribute answer that the
  external helper hasLoadingAttribute would give).
- Loader objects (ElementLoader instances, external to the manager source)
  are opaque nonzero numeric handles; target sub-elements of error signals
  are opaque numeric handles.
- The event channel is made explicit: every manager operation returns the
  new manager state together with the list of events it triggers, in
  trigger order.  Loader-to-manager signals are an inductive type and the
  subscription handlers installed by check() become a step function on
  manager states (handleSig), so a delivered signal sequence is a list.
- setTimeout in check() is modelled by a flag recording that the empty-batch
  task was scheduled, plus runEmptyTask giving the effect of running it.
-/

namespace ImReady

/-- An opaque DOM element: identity, tag name, and the answer the external
helper hasLoadingAttribute would give for it. -/
structure Element where
  id : Nat
  tag : String
  hasLoadingAttr : Bool
deriving DecidableEq, Repr, Inhabited

/-- One entry of the manager's elementInfos array (types.ts ElementInfo):
the owning loader (opaque nonzero handle), the element, and the four
bookkeeping flags. -/
structure ElementInfo where
  loader : Nat
  element : Element
  hasLoading : Bool
  hasError : Bool
  isPreReady : Bool
  isReady : Bool
deriving DecidableEq, Repr, Inhabited

/-- The manager options after constructor merging: the registered custom
loader tag keys (the keys of options.loaders) and the data-attribute
marker string (the option the source calls p r e f i x, default "data-"). -/
structure ImReadyOptions where
  loaderKeys : List String
  pfx : String
deriving DecidableEq, Repr, Inhabited

/-- Constructor input: a partial options object; missing fields fall back
to the defaults loaders = {} and "data-". -/
structure InitOptions where
  loaderKeys : Option (List String) := none
  pfx : Option String := none
deriving DecidableEq, Repr, Inhabited

/-- The ImReadyManager state: options plus the six mutable fields, and the
manager's own subscriber list (from the Component base class, modelled as
opaque handles so that destroy's off() can be stated). -/
structure ImReadyManager where
  options : ImReadyOptions
  readyCount : Nat := 0
  preReadyCount : Nat := 0
  totalCount : Nat := 0
  totalErrorCount : Nat := 0
  isPreReadyOver : Bool := true
  elementInfos : List ElementInfo := []
  listeners : List Nat := []
deriving DecidableEq, Repr

/-- Events triggered by the manager on its own channel, with the payload
fields of the corresponding trigger() calls. -/
inductive BatchEvt where
  | errorEvt (element : Element) (index : Nat) (target : Nat)
      (errorCount : Nat) (totalErrorCount : Nat)
  | preReadyElementEvt (element : Element) (index : Nat)
      (preReadyCount readyCount totalCount : Nat)
      (isPreReady isReady hasLoading : Bool)
  | preReadyEvt (readyCount totalCount : Nat) (isReady hasLoading : Bool)
  | readyElementEvt (index : Nat) (element : Element) (hasError : Bool)
      (errorCount totalErrorCount preReadyCount readyCount totalCount : Nat)
      (isPreReady isReady hasLoading isPreReadyOver : Bool)
  | readyEvt (errorCount totalErrorCount totalCount : Nat)
deriving DecidableEq, Repr

/-- Signals a loader delivers to the manager, as subscribed in check():
the index of the owning slot is baked into each subscription. -/
inductive LoaderSig where
  | errorSig (index : Nat) (target : Nat)
  | preReadySig (index : Nat) (hasLoading : Bool)
  | readySig (index : Nat) (withPreReady : Bool) (hasLoading : Bool)
deriving DecidableEq, Repr

namespace ImReadyManager

/-- Replace slot i of an info array by a field update of its current value
(the source mutates this.elementInfos[index] in place). -/
def modifyInfo (l : List ElementInfo) (i : Nat) (f : ElementInfo → ElementInfo) :
    List ElementInfo :=
  l.set i (f (l.getD i default))

/-- Constructor: merge the partial options over the defaults and start with
fresh counters, isPreReadyOver = true and an empty info array. -/
def initManager (p : InitOptions) : ImReadyManager :=
  { options := { loaderKeys := p.loaderKeys.getD [], pfx := p.pfx.getD "data-" } }

/-- getTotalCount(). -/
def getTotalCount (s : ImReadyManager) : Nat :=
  s.totalCount

/-- isPreReady(): every info has isPreReady (recomputed on each call). -/
def isPreReady (s : ImReadyManager) : Bool :=
  s.elementInfos.all fun info => info.isPreReady

/-- isReady(): every info has isReady (recomputed on each call). -/
def isReady (s : ImReadyManager) : Bool :=
  s.elementInfos.all fun info => info.isReady

/-- getErrorCount(): the number of infos with hasError, recomputed. -/
def getErrorCount (s : ImReadyManager) : Nat :=
  (s.elementInfos.filter fun info => info.hasError).length

/-- hasLoading(): some info has hasLoading. -/
def hasLoading (s : ImReadyManager) : Bool :=
  s.elementInfos.any fun info => info.hasLoading

/-- checkPreReady(index): set the slot's isPreReady, increment the batch
counter, and return false exactly when the counter is still below
totalCount. -/
def checkPreReady (s : ImReadyManager) (index : Nat) : ImReadyManager × Bool :=
  let s1 := { s with
    elementInfos := modifyInfo s.elementInfos index fun info => { info with isPreReady := true }
    preReadyCount := s.preReadyCount + 1 }
  if s1.preReadyCount < s1.totalCount then (s1, false) else (s1, true)

/-- checkReady(index): set the slot's isReady, increment the batch counter,
and return false exactly when the counter is still below totalCount. -/
def checkReady (s : ImReadyManager) (index : Nat) : ImReadyManager × Bool :=
  let s1 := { s with
    elementInfos := modifyInfo s.elementInfos index fun info => { info with isReady := true }
    readyCount := s.readyCount + 1 }
  if s1.readyCount < s1.totalCount then (s1, false) else (s1, true)

/-- onError(index, target): set the slot's hasError, increment
totalErrorCount, and trigger one error event whose errorCount field is
getErrorCount() recomputed on the updated array and whose totalErrorCount
field is the incremented counter. -/
def onError (s : ImReadyManager) (index : Nat) (target : Nat) :
    ImReadyManager × BatchEvt :=
  let infos := modifyInfo s.elementInfos index fun info => { info with hasError := true }
  let s1 := { s with elementInfos := infos, totalErrorCount := s.totalErrorCount + 1 }
  (s1, .errorEvt (infos.getD index default).element index target
    (getErrorCount s1) s1.totalErrorCount)

/-- onPreReadyElement(index): trigger the per-element pre-ready event from
the current state (no state change). -/
def onPreReadyElement (s : ImReadyManager) (index : Nat) : BatchEvt :=
  .preReadyElementEvt (s.elementInfos.getD index default).element index
    s.preReadyCount s.readyCount s.totalCount
    (isPreReady s) (isReady s) (s.elementInfos.getD index default).hasLoading

/-- onPreReady(): set isPreReadyOver and trigger the batch preReady event. -/
def onPreReady (s : ImReadyManager) : ImReadyManager × BatchEvt :=
  let s1 := { s with isPreReadyOver := true }
  (s1, .preReadyEvt s1.readyCount s1.totalCount (isReady s1) (hasLoading s1))

/-- onReadyElement(index): trigger the per-element ready event from the
current state (no state change). -/
def onReadyElement (s : ImReadyManager) (index : Nat) : BatchEvt :=
  .readyElementEvt index (s.elementInfos.getD index default).element
    (s.elementInfos.getD index default).hasError
    (getErrorCount s) s.totalErrorCount
    s.preReadyCount s.readyCount s.totalCount
    (isPreReady s) (isReady s)
    (s.elementInfos.getD index default).hasLoading s.isPreReadyOver

/-- onReady(): trigger the batch ready event (no state change). -/
def onReady (s : ImReadyManager) : BatchEvt :=
  .readyEvt (getErrorCount s) s.totalErrorCount s.totalCount

/-- The handlers check() subscribes on each loader (the error, preReady and
ready callbacks of lines 68-88 of the source), as a step function on the
manager state: one delivered loader signal produces the next state and the
list of manager events triggered by that handler, in order. -/
def handleSig (s : ImReadyManager) : LoaderSig → ImReadyManager × List BatchEvt
  | .errorSig index target =>
    let r := onError s index target
    (r.1, [r.2])
  | .preReadySig index hl =>
    let s1 := { s with
      elementInfos := modifyInfo s.elementInfos index fun info => { info with hasLoading := hl } }
    let c := checkPreReady s1 index
    let e1 := onPreReadyElement c.1 index
    let s2 := if c.2 then (onPreReady c.1).1 else c.1
    let mile := if c.2 then [(onPreReady c.1).2] else []
    (s2, [e1] ++ mile)
  | .readySig index withPreReady hl =>
    let s1 := { s with
      elementInfos := modifyInfo s.elementInfos index fun info => { info with hasLoading := hl } }
    let c := if withPreReady then checkPreReady s1 index else (s1, false)
    let r := checkReady c.1 index
    let els := (if withPreReady then [onPreReadyElement r.1 index] else []) ++
      [onReadyElement r.1 index]
    let s4 := if c.2 then (onPreReady r.1).1 else r.1
    let milePre := if c.2 then [(onPreReady r.1).2] else []
    let mileRdy := if r.2 then [onReady s4] else []
    (s4, els ++ milePre ++ mileRdy)

/-- Deliver a sequence of loader signals in order, concatenating the
triggered events. -/
def runSigs (s : ImReadyManager) : List LoaderSig → ImReadyManager × List BatchEvt
  | [] => (s, [])
  | sig :: rest =>
    let r := handleSig s sig
    let q := runSigs r.1 rest
    (q.1, r.2 ++ q.2)

/-- clear(): reset the pre-ready-over flag and all counters, destroy the
loader of every info that has not reached isReady (the source also guards
on the loader reference being truthy), and empty the array.  Returns the
new state and the handles of the destroyed loaders. -/
def clear (s : ImReadyManager) : ImReadyManager × List Nat :=
  let destroyed :=
    (s.elementInfos.filter fun info => !info.isReady && info.loader != 0).map
      fun info => info.loader
  ({ s with
      isPreReadyOver := false
      totalCount := 0
      preReadyCount := 0
      readyCount := 0
      totalErrorCount := 0
      elementInfos := [] }, destroyed)

/-- destroy(): clear() plus off(), which removes all of the manager's own
listeners. -/
def destroy (s : ImReadyManager) : ImReadyManager × List Nat :=
  let c := clear s
  ({ c.1 with listeners := [] }, c.2)

/-- The fresh info record check() builds for each element, with the loader
represented by the opaque nonzero handle start+1 for the slot at offset
start (the JS map callback produces one such record per element). -/
def buildInfos (els : List Element) (start : Nat) : List ElementInfo :=
  match els with
  | [] => []
  | e :: rest =>
    { loader := start + 1, element := e, hasLoading := false, hasError := false,
      isPreReady := false, isReady := false } :: buildInfos rest (start + 1)

/-- Result of a check() call: the new state, the loaders destroyed by the
initial clear(), the events triggered synchronously during the call, and
whether the empty-batch setTimeout task was scheduled. -/
structure CheckResult where
  state : ImReadyManager
  destroyed : List Nat
  syncEvents : List BatchEvt
  scheduledEmptyTask : Bool
deriving DecidableEq, Repr

/-- check(elements): clear the previous batch, build one info per element,
fix totalCount to the element count, and when it is zero schedule the
setTimeout task that will fire both batch milestones.  No manager event is
triggered synchronously during the call itself. -/
def check (s : ImReadyManager) (elements : List Element) : CheckResult :=
  let c := clear s
  let infos := buildInfos elements 0
  { state := { c.1 with elementInfos := infos, totalCount := infos.length }
    destroyed := c.2
    syncEvents := []
    scheduledEmptyTask := infos.length == 0 }

/-- The body of the setTimeout callback scheduled by check() for an empty
batch: this.onPreReady(); this.onReady(). -/
def runEmptyTask (s : ImReadyManager) : ImReadyManager × List BatchEvt :=
  let p := onPreReady s
  (p.1, [p.2, onReady p.1])

/-- clone(): new ImReadyManager with the spread of this.options, which the
constructor merges back over the defaults, reproducing the same options on
an otherwise fresh instance. -/
def clone (s : ImReadyManager) : ImReadyManager :=
  initManager { loaderKeys := some s.options.loaderKeys, pfx := some s.options.pfx }

end ImReadyManager

/-- The mutable closure state getLoader creates for a container-capable
element: the cloned nested manager (childrenImReady), the withPreReady
closure variable, whether the nested preReady subscription of the
requestChildren handler has been installed, and the captured children list
(the result of the querySelectorAll over the registered tags). -/
structure ContainerLoaderState where
  nested : ImReadyManager
  withPreReady : Bool
  preReadySubscribed : Bool
  children : List Element
deriving DecidableEq, Repr

/-- Calls the container wiring makes back into the ElementLoader (an
external collaborator), recorded as trace actions. -/
inductive LoaderAction where
  | loaderError (target : Nat)
  | loaderReady (withPreReady : Bool)
  | loaderPreReady
deriving DecidableEq, Repr

/-- The three signals a container loader sends its owning manager.  The
requestChildren payload is the content-element list the external
getContentElements helper would return. -/
inductive ContainerSig where
  | requestChildren (contentElements : List Element)
  | requestReadyChildren
  | requestDestroy
deriving DecidableEq, Repr

/-- Events of the nested manager that the container wiring subscribes to:
error, ready, and (after requestChildren) preReady with its isReady
payload field. -/
inductive NestedEvt where
  | nestedError (target : Nat)
  | nestedReady
  | nestedPreReady (isReady : Bool)
deriving DecidableEq, Repr

namespace ImReadyManager

/-- getLoader for an element: when the tag has a registered custom loader
the external constructor is used (not modelled, none); otherwise the
container wiring is built: a cloned nested manager, withPreReady = false,
and loader.setHasLoading set from the loading attributes of the children.
Returns the wiring state and the setHasLoading argument. -/
def getLoader (s : ImReadyManager) (element : Element) (children : List Element) :
    Option (ContainerLoaderState × Bool) :=
  if s.options.loaderKeys.contains element.tag then none
  else some
    ({ nested := clone s, withPreReady := false, preReadySubscribed := false,
       children := children },
     children.any fun el => el.hasLoadingAttr)

/-- The handlers getLoader subscribes on the container loader's three
request signals: requestChildren checks the content elements on the nested
manager and installs the nested preReady subscription; the ready-children
request checks the captured children; requestDestroy destroys the nested
manager. -/
def handleContainerSig (cs : ContainerLoaderState) :
    ContainerSig → ContainerLoaderState
  | .requestChildren contentElements =>
    { cs with
        nested := (check cs.nested contentElements).state
        preReadySubscribed := true }
  | .requestReadyChildren =>
    { cs with nested := (check cs.nested cs.children).state }
  | .requestDestroy =>
    { cs with nested := (destroy cs.nested).1 }

/-- The handlers getLoader subscribes on the nested manager's events:
error forwards the target to loader.onError, ready forwards to
loader.onReady with the current withPreReady, and the preReady handler
installed by requestChildren records withPreReady := e.isReady and calls
loader.onPreReady only when the nested batch is not already fully ready. -/
def handleNestedEvt (cs : ContainerLoaderState) :
    NestedEvt → ContainerLoaderState × List LoaderAction
  | .nestedError target => (cs, [.loaderError target])
  | .nestedReady => (cs, [.loaderReady cs.withPreReady])
  | .nestedPreReady isR =>
    if cs.preReadySubscribed then
      ({ cs with withPreReady := isR }, if isR then [] else [.loaderPreReady])
    else (cs, [])

end ImReadyManager

/-- A loader signal that performs pre-ready bookkeeping for slot i: a
separate preReady signal of i, or a ready signal of i with withPreReady. -/
def isPreSigOf (i : Nat) : LoaderSig → Bool
  | .preReadySig j _ => j == i
  | .readySig j wp _ => j == i && wp
  | .errorSig _ _ => false

/-- A separate preReady signal of slot i. -/
def isSepPreSigOf (i : Nat) : LoaderSig → Bool
  | .preReadySig j _ => j == i
  | _ => false

/-- A ready signal of slot i. -/
def isRdySigOf (i : Nat) : LoaderSig → Bool
  | .readySig j _ _ => j == i
  | _ => false

/-- A loader signal that performs pre-ready bookkeeping (any slot). -/
def isPreSig : LoaderSig → Bool
  | .preReadySig _ _ => true
  | .readySig _ wp _ => wp
  | .errorSig _ _ => false

/-- A ready signal (any slot). -/
def isRdySig : LoaderSig → Bool
  | .readySig _ _ _ => true
  | _ => false

/-- The slot index carried by a loader signal. -/
def sigIndex : LoaderSig → Nat
  | .errorSig i _ => i
  | .preReadySig i _ => i
  | .readySig i _ _ => i

/-- The batch-level preReady event. -/
def isBatchPre : BatchEvt → Bool
  | .preReadyEvt _ _ _ _ => true
  | _ => false

/-- The batch-level ready event. -/
def isBatchRdy : BatchEvt → Bool
  | .readyEvt _ _ _ => true
  | _ => false

/-- The batch preReady event occurs exactly once, the batch ready event
occurs exactly once, and at every cut point of the triggered event stream
the ready occurrences seen so far never exceed the preReady occurrences
seen so far (so the preReady trigger is never later than the ready
trigger, and when both are triggered from one handler the preReady comes
first). -/
def FiresOnceOrdered (L : List BatchEvt) : Prop :=
  L.countP isBatchPre = 1 ∧ L.countP isBatchRdy = 1 ∧
    ∀ l1 l2, L = l1 ++ l2 → l1.countP isBatchRdy ≤ l1.countP isBatchPre

/-- A sample image element. -/
def elA : Element := { id := 1, tag := "img", hasLoadingAttr := false }

/-- A second sample image element. -/
def elB : Element := { id := 2, tag := "img", hasLoadingAttr := true }

/-- A sample container element. -/
def elDiv : Element := { id := 3, tag := "div", hasLoadingAttr := false }

/-- A manager state mid-batch over one element whose preReady handler has
already run once: preReadyCount already equals totalCount = 1. -/
def exOverCounted : ImReadyManager :=
  { options := { loaderKeys := [], pfx := "data-" }
    readyCount := 0
    preReadyCount := 1
    totalCount := 1
    totalErrorCount := 0
    isPreReadyOver := true
    elementInfos :=
      [{ loader := 1, element := elA, hasLoading := false,
         hasError := false, isPreReady := true, isReady := false }]
    listeners := [] }

/-- A manager state mid-batch over two elements with one listener
attached, used to instantiate the lifecycle theorems. -/
def exMidBatch : ImReadyManager :=
  { options := { loaderKeys := ["img"], pfx := "data-" }
    readyCount := 1
    preReadyCount := 2
    totalCount := 2
    totalErrorCount := 1
    isPreReadyOver := true
    elementInfos :=
      [{ loader := 1, element := elA, hasLoading := false, hasError := true,
         isPreReady := true, isReady := true },
       { loader := 2, element := elB, hasLoading := true, hasError := false,
         isPreReady := true, isReady := false }]
    listeners := [7] }

open ImReadyManager

theorem getD_set_self {α : Type} {l : List α} {i : Nat} {a d : α} (h : i < l.length) :
    (l.set i a).getD i d = a := by
  simp [List.getD_eq_getElem?_getD, List.getElem?_set, h]

theorem getD_set_ne {α : Type} {l : List α} {i j : Nat} {a d : α} (h : i ≠ j) :
    (l.set i a).getD j d = l.getD j d := by
  simp [List.getD_eq_getElem?_getD, List.getElem?_set, h]

theorem buildInfos_length (els : List Element) (start : Nat) :
    (buildInfos els start).length = els.length := by
  induction els generalizing start with
  | nil => rfl
  | cons e rest ih => simp [buildInfos, ih]

/-- C2 (amended): checkPreReady(i) sets the slot's isPreReady flag and
increments preReadyCount by one, and returns true iff the counter is now
at least totalCount; when the counter had not yet reached totalCount
before the call this is the same as the counter now equalling totalCount.
checkReady(i) does the same for isReady, readyCount and totalCount. -/
theorem checkPreReady_checkReady_spec (s : ImReadyManager) (i : Nat)
    (hi : i < s.elementInfos.length) :
    ((checkPreReady s i).1.elementInfos.getD i default).isPreReady = true ∧
    (checkPreReady s i).1.preReadyCount = s.preReadyCount + 1 ∧
    ((checkPreReady s i).2 = true ↔ s.totalCount ≤ s.preReadyCount + 1) ∧
    (s.preReadyCount < s.totalCount →
      ((checkPreReady s i).2 = true ↔ s.preReadyCount + 1 = s.totalCount)) ∧
    ((checkReady s i).1.elementInfos.getD i default).isReady = true ∧
    (checkReady s i).1.readyCount = s.readyCount + 1 ∧
    ((checkReady s i).2 = true ↔ s.totalCount ≤ s.readyCount + 1) ∧
    (s.readyCount < s.totalCount →
      ((checkReady s i).2 = true ↔ s.readyCount + 1 = s.totalCount)) := by
  refine ⟨?_, ?_, ?_, ?_, ?_, ?_, ?_, ?_⟩ <;>
    simp only [checkPreReady, checkReady, modifyInfo] <;>
    split <;>
    simp_all [getD_set_self hi] <;>
    omega

/-- C2 (counterexample to the claim as stated): on a state whose pre-ready
counter already reached totalCount, checkPreReady returns true although
the incremented counter does not equal totalCount, so the return value is
not equivalent to the counter now equalling totalCount. -/
theorem checkPreReady_eq_total_counterexample :
    (checkPreReady exOverCounted 0).2 = true ∧
    (checkPreReady exOverCounted 0).1.preReadyCount ≠ exOverCounted.totalCount := by
  decide

/-- C2 witness: the amended theorem applied to a concrete mid-batch state. -/
theorem checkPreReady_checkReady_spec_witness :
    0 < exMidBatch.elementInfos.length ∧
    ((checkPreReady exMidBatch 0).2 = true ↔
      exMidBatch.totalCount ≤ exMidBatch.preReadyCount + 1) :=
  ⟨by decide, (checkPreReady_checkReady_spec exMidBatch 0 (by decide)).2.2.1⟩

/-- C3: check() with an empty collection sets totalCount to 0, triggers no
event synchronously during the call, schedules the empty-batch task, and
running that task triggers the batch preReady event followed by the batch
ready event whose payload carries totalCount = 0 and errorCount = 0. -/
theorem empty_check_schedules_async_milestones (s : ImReadyManager) :
    (check s []).state.totalCount = 0 ∧
    (check s []).syncEvents = [] ∧
    (check s []).scheduledEmptyTask = true ∧
    runEmptyTask (check s []).state =
      ({ (check s []).state with isPreReadyOver := true },
        [BatchEvt.preReadyEvt 0 0 true false, BatchEvt.readyEvt 0 0 0]) := by
  simp [check, clear, buildInfos, runEmptyTask, onPreReady, onReady,
    ImReadyManager.isReady, ImReadyManager.hasLoading, getErrorCount]

theorem checkPreReady_totalCount (s : ImReadyManager) (i : Nat) :
    (checkPreReady s i).1.totalCount = s.totalCount := by
  simp only [checkPreReady]
  split <;> rfl

theorem checkReady_totalCount (s : ImReadyManager) (i : Nat) :
    (checkReady s i).1.totalCount = s.totalCount := by
  simp only [checkReady]
  split <;> rfl

theorem onPreReady_totalCount (s : ImReadyManager) :
    (onPreReady s).1.totalCount = s.totalCount := rfl

theorem handleSig_totalCount (s : ImReadyManager) (sig : LoaderSig) :
    (handleSig s sig).1.totalCount = s.totalCount := by
  cases sig <;> simp only [handleSig] <;> (repeat' split) <;>
    (first
      | rfl
      | simp [checkPreReady_totalCount, checkReady_totalCount, onPreReady_totalCount,
          onError])

theorem runSigs_totalCount (s : ImReadyManager) (tr : List LoaderSig) :
    (runSigs s tr).1.totalCount = s.totalCount := by
  induction tr generalizing s with
  | nil => rfl
  | cons sig rest ih => simp [runSigs, ih, handleSig_totalCount]

/-- C5: check() fixes totalCount to the number of passed resources,
getTotalCount() returns it, and delivering loader signals (error, preReady
or ready bookkeeping, with all the events they trigger) never changes
totalCount; only another check(), clear() or destroy() does. -/
theorem totalCount_fixed_per_batch (s : ImReadyManager) (els : List Element)
    (sig : LoaderSig) (tr : List LoaderSig) :
    (check s els).state.totalCount = els.length ∧
    getTotalCount (check s els).state = els.length ∧
    (handleSig s sig).1.totalCount = s.totalCount ∧
    (runSigs s tr).1.totalCount = s.totalCount := by
  refine ⟨?_, ?_, handleSig_totalCount s sig, runSigs_totalCount s tr⟩ <;>
    simp [check, clear, getTotalCount, buildInfos_length]

/-- C6: clear() resets isPreReadyOver and all four counters, empties the
info array, and destroys exactly the loaders of the entries that had not
reached isReady; destroy() is clear() plus removing all of the manager's
own listeners. -/
theorem clear_destroy_spec (s : ImReadyManager)
    (h : ∀ info ∈ s.elementInfos, info.loader ≠ 0) :
    (clear s).1.isPreReadyOver = false ∧
    (clear s).1.totalCount = 0 ∧
    (clear s).1.preReadyCount = 0 ∧
    (clear s).1.readyCount = 0 ∧
    (clear s).1.totalErrorCount = 0 ∧
    (clear s).1.elementInfos = [] ∧
    (clear s).2 =
      (s.elementInfos.filter fun info => !info.isReady).map (fun info => info.loader) ∧
    (destroy s).1 = { (clear s).1 with listeners := [] } ∧
    (destroy s).2 = (clear s).2 := by
  refine ⟨rfl, rfl, rfl, rfl, rfl, rfl, ?_, rfl, rfl⟩
  simp only [clear]
  congr 1
  refine List.filter_congr fun info hinfo => ?_
  have := h info hinfo
  simp_all

/-- C6 witness: clear on a concrete mid-batch state destroys exactly the
loaders of the entries still lacking isReady. -/
theorem clear_destroy_spec_witness :
    (∀ info ∈ exMidBatch.elementInfos, info.loader ≠ 0) ∧
    (clear exMidBatch).2 =
      (exMidBatch.elementInfos.filter fun info => !info.isReady).map
        (fun info => info.loader) :=
  ⟨by decide, (clear_destroy_spec exMidBatch (by decide)).2.2.2.2.2.2.1⟩

/-- C7: for a container-capable element (tag not registered as a custom
loader key), getLoader builds a freshly cloned nested manager (copying
only the options: counters, infos and listeners are fresh) with
withPreReady initially false and setHasLoading from the children, wires
requestChildren and the ready-children request to the nested manager's
check (the former also installing the nested preReady subscription) and
requestDestroy to its destroy, and forwards nested error to
loader.onError, nested ready to loader.onReady(withPreReady), and drives
loader.onPreReady from the nested preReady handler. -/
theorem getLoader_container_wiring (s : ImReadyManager) (el : Element)
    (children ce : List Element) (cs : ContainerLoaderState) (t : Nat) (isR : Bool)
    (h : s.options.loaderKeys.contains el.tag = false)
    (hsub : cs.preReadySubscribed = true) :
    getLoader s el children = some
      ({ nested := clone s, withPreReady := false, preReadySubscribed := false,
         children := children },
       children.any fun e => e.hasLoadingAttr) ∧
    clone s = { options := s.options } ∧
    (handleContainerSig cs (.requestChildren ce)).nested = (check cs.nested ce).state ∧
    (handleContainerSig cs (.requestChildren ce)).nested.totalCount = ce.length ∧
    (handleContainerSig cs (.requestChildren ce)).preReadySubscribed = true ∧
    (handleContainerSig cs .requestReadyChildren).nested =
      (check cs.nested cs.children).state ∧
    (handleContainerSig cs .requestDestroy).nested = (destroy cs.nested).1 ∧
    (handleContainerSig cs .requestDestroy).nested.elementInfos = [] ∧
    (handleContainerSig cs .requestDestroy).nested.listeners = [] ∧
    handleNestedEvt cs (.nestedError t) = (cs, [.loaderError t]) ∧
    handleNestedEvt cs .nestedReady = (cs, [.loaderReady cs.withPreReady]) ∧
    handleNestedEvt cs (.nestedPreReady isR) =
      ({ cs with withPreReady := isR }, if isR then [] else [.loaderPreReady]) := by
  have h2 : el.tag ∉ s.options.loaderKeys := by simpa using h
  refine ⟨?_, rfl, rfl, ?_, rfl, rfl, rfl, rfl, rfl, rfl, rfl, ?_⟩
  · simp [getLoader, h2]
  · simp [handleContainerSig, check, buildInfos_length]
  · simp [handleNestedEvt, hsub]

/-- C7 witness: the wiring theorem applied to a concrete manager, element
and container state. -/
theorem getLoader_container_wiring_witness :
    (exMidBatch.options.loaderKeys.contains elDiv.tag = false) ∧
    getLoader exMidBatch elDiv [elA, elB] = some
      ({ nested := clone exMidBatch, withPreReady := false,
         preReadySubscribed := false, children := [elA, elB] },
       [elA, elB].any fun e => e.hasLoadingAttr) :=
  ⟨by decide,
    (getLoader_container_wiring exMidBatch elDiv [elA, elB] []
      { nested := clone exMidBatch, withPreReady := false,
        preReadySubscribed := true, children := [] } 0 false
      (by decide) rfl).1⟩

/-- C8: isPreReady() is true exactly when every info has isPreReady, and
isReady() exactly when every info has isReady; both are recomputed from
the array on each call and in particular do not depend on the cached
isPreReadyOver flag. -/
theorem isPreReady_isReady_recomputed (s : ImReadyManager) (b : Bool) :
    (ImReadyManager.isPreReady s = true ↔
      ∀ info ∈ s.elementInfos, info.isPreReady = true) ∧
    (ImReadyManager.isReady s = true ↔
      ∀ info ∈ s.elementInfos, info.isReady = true) ∧
    ImReadyManager.isPreReady { s with isPreReadyOver := b } =
      ImReadyManager.isPreReady s ∧
    ImReadyManager.isReady { s with isPreReadyOver := b } =
      ImReadyManager.isReady s := by
  refine ⟨?_, ?_, rfl, rfl⟩ <;>
    simp [ImReadyManager.isPreReady, ImReadyManager.isReady, List.all_eq_true]

theorem runSigs_append (s : ImReadyManager) (t1 t2 : List LoaderSig) :
    runSigs s (t1 ++ t2) =
      ((runSigs (runSigs s t1).1 t2).1,
        (runSigs s t1).2 ++ (runSigs (runSigs s t1).1 t2).2) := by
  induction t1 generalizing s with
  | nil => simp [runSigs]
  | cons sig rest ih => simp [runSigs, ih]

theorem modifyInfo_length (l : List ElementInfo) (i : Nat) (f : ElementInfo → ElementInfo) :
    (modifyInfo l i f).length = l.length := by
  simp [modifyInfo]

theorem handleSig_errorSig (s : ImReadyManager) (i t : Nat) :
    handleSig s (.errorSig i t) = ((onError s i t).1, [(onError s i t).2]) := rfl

theorem errRun_length (s : ImReadyManager) (errs : List (Nat × Nat)) :
    (runSigs s (errs.map fun p => LoaderSig.errorSig p.1 p.2)).1.elementInfos.length =
      s.elementInfos.length := by
  induction errs generalizing s with
  | nil => rfl
  | cons p rest ih =>
    simp [runSigs, handleSig_errorSig, ih, onError, modifyInfo_length]

theorem errRun_getD (s : ImReadyManager) (errs : List (Nat × Nat)) (i : Nat)
    (hv : ∀ p ∈ errs, p.1 < s.elementInfos.length) :
    (runSigs s (errs.map fun p => LoaderSig.errorSig p.1 p.2)).1.elementInfos.getD i default =
      { s.elementInfos.getD i default with
        hasError := (s.elementInfos.getD i default).hasError ||
          errs.any fun p => p.1 == i } := by
  induction errs generalizing s with
  | nil => simp [runSigs]
  | cons p rest ih =>
    have hp := hv p (by simp)
    have hrest : ∀ q ∈ rest, q.1 < (onError s p.1 p.2).1.elementInfos.length := by
      intro q hq
      simpa [onError, modifyInfo_length] using hv q (by simp [hq])
    calc (runSigs s ((p :: rest).map fun q => LoaderSig.errorSig q.1 q.2)).1.elementInfos.getD i default
        = (runSigs (onError s p.1 p.2).1 (rest.map fun q => LoaderSig.errorSig q.1 q.2)).1.elementInfos.getD i default := by
          simp [runSigs, handleSig_errorSig]
      _ = { (onError s p.1 p.2).1.elementInfos.getD i default with
            hasError := ((onError s p.1 p.2).1.elementInfos.getD i default).hasError ||
              rest.any fun q => q.1 == i } := ih _ hrest
      _ = { s.elementInfos.getD i default with
            hasError := (s.elementInfos.getD i default).hasError ||
              (p :: rest).any fun q => q.1 == i } := by
          by_cases hip : p.1 = i
          · subst hip
            simp [onError, modifyInfo, List.getD_eq_getElem?_getD,
              List.getElem?_set, hp]
          · have hbeq : (p.1 == i) = false := by simpa using hip
            simp [onError, modifyInfo, List.getD_eq_getElem?_getD,
              List.getElem?_set, hip, hbeq]

theorem getErrorCount_onError (s : ImReadyManager) (i t : Nat)
    (hi : i < s.elementInfos.length) :
    getErrorCount (onError s i t).1 =
      getErrorCount s +
        (if (s.elementInfos.getD i default).hasError then 0 else 1) := by
  have hget : s.elementInfos.getD i default = s.elementInfos[i] := by
    simp [List.getD_eq_getElem?_getD, List.getElem?_eq_getElem hi]
  have hbound : (if (s.elementInfos[i]).hasError then 1 else 0) ≤
      s.elementInfos.countP fun info => info.hasError := by
    split
    · exact Nat.succ_le_of_lt (List.countP_pos_iff.mpr
        ⟨s.elementInfos[i], List.getElem_mem hi, by simp_all⟩)
    · exact Nat.zero_le _
  simp only [getErrorCount, ← List.countP_eq_length_filter, onError, modifyInfo,
    List.countP_set _ _ _ _ hi, hget]
  split <;> simp_all <;> omega

theorem buildInfos_hasError (els : List Element) (start : Nat) :
    ∀ info ∈ buildInfos els start, info.hasError = false := by
  induction els generalizing start with
  | nil => simp [buildInfos]
  | cons e rest ih =>
    intro info hinfo
    rcases (by simpa [buildInfos] using hinfo : _ ∨ _) with h | h
    · simp [h]
    · exact ih _ info h

theorem errRun_counts (s : ImReadyManager) (errs : List (Nat × Nat))
    (hv : ∀ p ∈ errs, p.1 < s.elementInfos.length)
    (hfresh : ∀ info ∈ s.elementInfos, info.hasError = false) :
    (runSigs s (errs.map fun p => LoaderSig.errorSig p.1 p.2)).1.totalErrorCount =
      s.totalErrorCount + errs.length ∧
    getErrorCount (runSigs s (errs.map fun p => LoaderSig.errorSig p.1 p.2)).1 =
      ((errs.map Prod.fst).toFinset).card := by
  induction errs using List.reverseRecOn with
  | nil =>
    refine ⟨rfl, ?_⟩
    simp only [getErrorCount, ← List.countP_eq_length_filter, List.map_nil, runSigs]
    have hz : (s.elementInfos.countP fun info => info.hasError) = 0 := by
      rw [List.countP_eq_zero]
      intro a ha
      simp [hfresh a ha]
    simp [hz]
  | append_singleton rest p ih =>
    have hvrest : ∀ q ∈ rest, q.1 < s.elementInfos.length := fun q hq => hv q (by simp [hq])
    obtain ⟨ihTec, ihCnt⟩ := ih hvrest
    have hp : p.1 < s.elementInfos.length := hv p (by simp)
    have hmidlen : (runSigs s (rest.map fun q => LoaderSig.errorSig q.1 q.2)).1.elementInfos.length
        = s.elementInfos.length := errRun_length s rest
    have hmidflag := errRun_getD s rest p.1 hvrest
    have hzero : (s.elementInfos.getD p.1 default).hasError = false := by
      have : s.elementInfos.getD p.1 default ∈ s.elementInfos := by
        have := List.getElem_mem hp
        simpa [List.getD_eq_getElem?_getD, List.getElem?_eq_getElem hp] using this
      exact hfresh _ this
    have hsplit : (rest ++ [p]).map (fun q => LoaderSig.errorSig q.1 q.2) =
        rest.map (fun q => LoaderSig.errorSig q.1 q.2) ++ [LoaderSig.errorSig p.1 p.2] := by
      simp
    rw [hsplit, runSigs_append]
    constructor
    · simp [runSigs, handleSig_errorSig, onError, ihTec]
      omega
    · have hstep := getErrorCount_onError
        (runSigs s (rest.map fun q => LoaderSig.errorSig q.1 q.2)).1 p.1 p.2
        (by rw [hmidlen]; exact hp)
      have hfin : ((rest ++ [p]).map Prod.fst).toFinset =
          insert p.1 ((rest.map Prod.fst).toFinset) := by
        have h1 : ((rest ++ [p]).map Prod.fst) = rest.map Prod.fst ++ [p.1] := by simp
        have h2 : ([p.1] : List Nat).toFinset = {p.1} := by simp
        rw [h1, List.toFinset_append, h2, Finset.union_comm, ← Finset.insert_eq]
      simp only [runSigs, handleSig_errorSig, List.append_nil]
      rw [hstep, hmidflag, hzero, ihCnt, hfin]
      by_cases hmem : p.1 ∈ (rest.map Prod.fst).toFinset
      · have hany : (rest.any fun q => q.1 == p.1) = true := by
          simp only [List.mem_toFinset, List.mem_map] at hmem
          obtain ⟨q, hq, hq1⟩ := hmem
          simp only [List.any_eq_true]
          exact ⟨q, hq, by simp [hq1]⟩
        simp [hany, Finset.insert_eq_self.mpr hmem]
      · have hany : (rest.any fun q => q.1 == p.1) = false := by
          simp only [List.mem_toFinset, List.mem_map] at hmem
          simp only [List.any_eq_false]
          intro q hq
          simp only [beq_iff_eq]
          exact fun hq1 => hmem ⟨q, hq, hq1⟩
        simp [hany, Finset.card_insert_of_not_mem hmem]

/-- C4: onError(i, target) sets elementInfos[i].hasError, increments the
monotonic totalErrorCount, and emits one error event carrying the slot's
element, the index, the target, errorCount recomputed as the number of
infos with hasError at that moment, and the incremented totalErrorCount;
starting from a fresh batch, n error signals over k distinct indices leave
totalErrorCount = n and errorCount = k (the number of distinct signalled
indices), so totalErrorCount can exceed errorCount. -/
theorem onError_spec (m : ImReadyManager) (i tg : Nat) (s : ImReadyManager)
    (els : List Element) (errs : List (Nat × Nat))
    (hi : i < m.elementInfos.length)
    (hv : ∀ p ∈ errs, p.1 < els.length) :
    ((onError m i tg).1.elementInfos.getD i default).hasError = true ∧
    (onError m i tg).1.totalErrorCount = m.totalErrorCount + 1 ∧
    (onError m i tg).2 = BatchEvt.errorEvt (m.elementInfos.getD i default).element i tg
      (getErrorCount (onError m i tg).1) (m.totalErrorCount + 1) ∧
    getErrorCount (onError m i tg).1 =
      ((onError m i tg).1.elementInfos.filter fun info => info.hasError).length ∧
    (runSigs (check s els).state
        (errs.map fun p => LoaderSig.errorSig p.1 p.2)).1.totalErrorCount = errs.length ∧
    getErrorCount (runSigs (check s els).state
        (errs.map fun p => LoaderSig.errorSig p.1 p.2)).1 =
      ((errs.map Prod.fst).toFinset).card ∧
    ((errs.map Prod.fst).toFinset).card ≤ errs.length := by
  have hstate : (check s els).state.elementInfos = buildInfos els 0 := rfl
  have hv' : ∀ p ∈ errs, p.1 < (check s els).state.elementInfos.length := by
    intro p hp
    rw [hstate, buildInfos_length]
    exact hv p hp
  have hfresh : ∀ info ∈ (check s els).state.elementInfos, info.hasError = false := by
    rw [hstate]
    exact buildInfos_hasError els 0
  obtain ⟨hTec, hCnt⟩ := errRun_counts (check s els).state errs hv' hfresh
  refine ⟨?_, rfl, ?_, rfl, by simpa [check, clear] using hTec, hCnt, ?_⟩
  · simp [onError, modifyInfo, List.getD_eq_getElem?_getD, List.getElem?_set, hi]
  · simp [onError, modifyInfo, List.getD_eq_getElem?_getD, List.getElem?_set, hi]
  · calc ((errs.map Prod.fst).toFinset).card ≤ (errs.map Prod.fst).length :=
      List.toFinset_card_le _
    _ = errs.length := by simp

/-- C4 witness: three error signals over two distinct indices of a fresh
two-element batch give totalErrorCount = 3 and errorCount = 2. -/
theorem onError_spec_witness :
    1 < exMidBatch.elementInfos.length ∧
    (∀ p ∈ ([(0, 5), (0, 6), (1, 7)] : List (Nat × Nat)), p.1 < [elA, elB].length) ∧
    (runSigs (check exMidBatch [elA, elB]).state
        (([(0, 5), (0, 6), (1, 7)] : List (Nat × Nat)).map
          fun p => LoaderSig.errorSig p.1 p.2)).1.totalErrorCount =
      ([(0, 5), (0, 6), (1, 7)] : List (Nat × Nat)).length :=
  ⟨by decide, by decide,
    (onError_spec exMidBatch 1 5 exMidBatch [elA, elB] [(0, 5), (0, 6), (1, 7)]
      (by decide) (by decide)).2.2.2.2.1⟩

/-- C9: checkPreReady and checkReady increment their counters
unconditionally, even when the slot's flag is already set, and the
milestone test is counter greater-or-equal totalCount; concretely, on a
two-element batch, delivering the preReady signal of slot 0 twice fires
the batch preReady milestone although slot 1 never reported. -/
theorem counters_increment_unconditionally (s : ImReadyManager) (i : Nat)
    (hpre : (s.elementInfos.getD i default).isPreReady = true)
    (hrdy : (s.elementInfos.getD i default).isReady = true) :
    (checkPreReady s i).1.preReadyCount = s.preReadyCount + 1 ∧
    ((checkPreReady s i).2 = true ↔ s.totalCount ≤ s.preReadyCount + 1) ∧
    (checkReady s i).1.readyCount = s.readyCount + 1 ∧
    ((checkReady s i).2 = true ↔ s.totalCount ≤ s.readyCount + 1) ∧
    ((runSigs (check (initManager {}) [elA, elB]).state
        [.preReadySig 0 false, .preReadySig 0 false]).2.countP isBatchPre = 1 ∧
      ((runSigs (check (initManager {}) [elA, elB]).state
        [.preReadySig 0 false, .preReadySig 0 false]).1.elementInfos.getD 1
          default).isPreReady = false) := by
  refine ⟨?_, ?_, ?_, ?_, by decide⟩ <;>
    simp only [checkPreReady, checkReady] <;>
    split <;>
    simp_all <;>
    omega

/-- C9 witness: the theorem applied at a slot whose flags are already
set. -/
theorem counters_increment_unconditionally_witness :
    (exMidBatch.elementInfos.getD 0 default).isPreReady = true ∧
    (exMidBatch.elementInfos.getD 0 default).isReady = true ∧
    (checkPreReady exMidBatch 0).1.preReadyCount = exMidBatch.preReadyCount + 1 :=
  ⟨by decide, by decide,
    (counters_increment_unconditionally exMidBatch 0 (by decide) (by decide)).1⟩

theorem checkPreReady_fst (s : ImReadyManager) (i : Nat) :
    (checkPreReady s i).1 =
      { s with
        elementInfos := modifyInfo s.elementInfos i fun info => { info with isPreReady := true }
        preReadyCount := s.preReadyCount + 1 } := by
  simp only [checkPreReady]
  split <;> rfl

theorem checkPreReady_snd (s : ImReadyManager) (i : Nat) :
    ((checkPreReady s i).2 = true) ↔ s.totalCount ≤ s.preReadyCount + 1 := by
  simp only [checkPreReady]
  split <;> simp_all <;> omega

theorem checkReady_fst (s : ImReadyManager) (i : Nat) :
    (checkReady s i).1 =
      { s with
        elementInfos := modifyInfo s.elementInfos i fun info => { info with isReady := true }
        readyCount := s.readyCount + 1 } := by
  simp only [checkReady]
  split <;> rfl

theorem checkReady_snd (s : ImReadyManager) (i : Nat) :
    ((checkReady s i).2 = true) ↔ s.totalCount ≤ s.readyCount + 1 := by
  simp only [checkReady]
  split <;> simp_all <;> omega

theorem onPreReady_fst (s : ImReadyManager) :
    (onPreReady s).1 = { s with isPreReadyOver := true } := rfl

theorem handleSig_preReadyCount (s : ImReadyManager) (sig : LoaderSig) :
    (handleSig s sig).1.preReadyCount =
      s.preReadyCount + (if isPreSig sig then 1 else 0) := by
  cases sig with
  | errorSig i t => simp [handleSig_errorSig, onError, isPreSig]
  | preReadySig i hl =>
    simp only [handleSig, isPreSig]
    split <;> simp [onPreReady_fst, checkPreReady_fst]
  | readySig i wp hl =>
    simp only [handleSig, isPreSig]
    cases wp <;>
      (repeat' split) <;>
      simp_all [onPreReady_fst, checkPreReady_fst, checkReady_fst]

theorem handleSig_readyCount (s : ImReadyManager) (sig : LoaderSig) :
    (handleSig s sig).1.readyCount =
      s.readyCount + (if isRdySig sig then 1 else 0) := by
  cases sig with
  | errorSig i t => simp [handleSig_errorSig, onError, isRdySig]
  | preReadySig i hl =>
    simp only [handleSig, isRdySig]
    split <;> simp [onPreReady_fst, checkPreReady_fst]
  | readySig i wp hl =>
    simp only [handleSig, isRdySig]
    cases wp <;>
      (repeat' split) <;>
      simp_all [onPreReady_fst, checkPreReady_fst, checkReady_fst]

theorem checkPreReady_snd_eq (s : ImReadyManager) (i : Nat) :
    (checkPreReady s i).2 = decide (s.totalCount ≤ s.preReadyCount + 1) := by
  simp only [checkPreReady]
  split <;> simp <;> omega

theorem checkReady_snd_eq (s : ImReadyManager) (i : Nat) :
    (checkReady s i).2 = decide (s.totalCount ≤ s.readyCount + 1) := by
  simp only [checkReady]
  split <;> simp <;> omega

theorem handleSig_countBatchPre (s : ImReadyManager) (sig : LoaderSig) :
    (handleSig s sig).2.countP isBatchPre =
      if isPreSig sig = true ∧ s.totalCount ≤ s.preReadyCount + 1 then 1 else 0 := by
  cases sig with
  | errorSig i t =>
    simp [handleSig_errorSig, isPreSig, isBatchPre, onError]
  | preReadySig i hl =>
    simp only [handleSig, isPreSig]
    rw [checkPreReady_snd_eq]
    split <;>
      simp_all [isBatchPre, onPreReadyElement, onPreReady, List.countP_cons] <;>
      split_ifs <;> omega
  | readySig i wp hl =>
    cases wp with
    | false =>
      simp only [handleSig, Bool.false_eq_true, if_false, isPreSig]
      rw [checkReady_snd_eq]
      split <;>
        simp [isBatchPre, onPreReadyElement, onReadyElement, onReady,
          List.countP_append, List.countP_cons]
    | true =>
      simp only [handleSig, if_true, isPreSig]
      rw [checkPreReady_snd_eq, checkReady_snd_eq, checkPreReady_fst]
      by_cases hc : s.totalCount ≤ s.preReadyCount + 1 <;>
        simp [hc, isBatchPre, onPreReadyElement, onReadyElement, onReady, onPreReady,
          List.countP_append, List.countP_cons] <;>
        split <;>
        simp [isBatchPre, onReady]

theorem handleSig_countBatchRdy (s : ImReadyManager) (sig : LoaderSig) :
    (handleSig s sig).2.countP isBatchRdy =
      if isRdySig sig = true ∧ s.totalCount ≤ s.readyCount + 1 then 1 else 0 := by
  cases sig with
  | errorSig i t =>
    simp [handleSig_errorSig, isRdySig, isBatchRdy, onError]
  | preReadySig i hl =>
    simp only [handleSig, isRdySig]
    rw [checkPreReady_snd_eq]
    split <;>
      simp [isBatchRdy, onPreReadyElement, onPreReady, List.countP_cons]
  | readySig i wp hl =>
    cases wp with
    | false =>
      simp only [handleSig, Bool.false_eq_true, if_false, isRdySig]
      rw [checkReady_snd_eq]
      by_cases hr : s.totalCount ≤ s.readyCount + 1 <;>
        simp [hr, isBatchRdy, onPreReadyElement, onReadyElement, onReady,
          List.countP_append, List.countP_cons]
    | true =>
      simp only [handleSig, if_true, isRdySig]
      rw [checkPreReady_snd_eq, checkReady_snd_eq, checkPreReady_fst]
      by_cases hr : s.totalCount ≤ s.readyCount + 1 <;>
        by_cases hc : s.totalCount ≤ s.preReadyCount + 1 <;>
        simp [hr, hc, isBatchRdy, onPreReadyElement, onReadyElement, onReady, onPreReady,
          List.countP_append, List.countP_cons]

theorem handleSig_rdy_decomp (s : ImReadyManager) (sig : LoaderSig) :
    ∃ B T, (handleSig s sig).2 = B ++ T ∧ B.countP isBatchRdy = 0 ∧ T.length ≤ 1 := by
  cases sig with
  | errorSig i t =>
    exact ⟨[], [(onError s i t).2], rfl, rfl, by simp⟩
  | preReadySig i hl =>
    simp only [handleSig]
    refine ⟨_, _, rfl, ?_, ?_⟩
    · simp [isBatchRdy, onPreReadyElement]
    · split <;> simp
  | readySig i wp hl =>
    simp only [handleSig]
    refine ⟨_, _, rfl, ?_, ?_⟩
    · simp only [List.countP_append]
      cases wp <;>
        (repeat' split) <;>
        simp [isBatchRdy, onPreReadyElement, onReadyElement, onPreReady, List.countP_cons]
    · (repeat' split) <;> simp

theorem runSigs_singleton (s : ImReadyManager) (e : LoaderSig) :
    runSigs s [e] = handleSig s e := by
  simp [runSigs]

theorem take_succ_getElem (tr : List LoaderSig) (k : Nat) (hk : k < tr.length) :
    tr.take (k + 1) = tr.take k ++ [tr[k]] := by
  rw [List.take_succ]
  simp [List.getElem?_eq_getElem hk]

theorem take_countP_le (p : LoaderSig → Bool) (tr : List LoaderSig) (k : Nat) :
    (tr.take k).countP p ≤ tr.countP p :=
  ((List.take_prefix k tr).sublist).countP_le p

theorem preSig_partition (n : Nat) (t : List LoaderSig)
    (hidx : ∀ e ∈ t, sigIndex e < n) :
    t.countP isPreSig = ∑ j ∈ Finset.range n, t.countP (isPreSigOf j) := by
  induction t with
  | nil => simp
  | cons e rest ih =>
    have hrest : ∀ x ∈ rest, sigIndex x < n :=
      fun x hx => hidx x (List.mem_cons_of_mem e hx)
    have he : sigIndex e < n := hidx e (List.mem_cons_self e rest)
    simp only [List.countP_cons, ih hrest, Finset.sum_add_distrib]
    congr 1
    cases e with
    | errorSig i t2 => simp [isPreSig, isPreSigOf]
    | preReadySig i hl =>
      simp only [sigIndex] at he
      simp [isPreSig, isPreSigOf, beq_iff_eq, Finset.sum_ite_eq, Finset.mem_range.mpr he]
    | readySig i wp hl =>
      simp only [sigIndex] at he
      cases wp <;>
        simp [isPreSig, isPreSigOf, beq_iff_eq, Finset.sum_ite_eq, Finset.mem_range.mpr he]

theorem rdySig_partition (n : Nat) (t : List LoaderSig)
    (hidx : ∀ e ∈ t, sigIndex e < n) :
    t.countP isRdySig = ∑ j ∈ Finset.range n, t.countP (isRdySigOf j) := by
  induction t with
  | nil => simp
  | cons e rest ih =>
    have hrest : ∀ x ∈ rest, sigIndex x < n :=
      fun x hx => hidx x (List.mem_cons_of_mem e hx)
    have he : sigIndex e < n := hidx e (List.mem_cons_self e rest)
    simp only [List.countP_cons, ih hrest, Finset.sum_add_distrib]
    congr 1
    cases e with
    | errorSig i t2 => simp [isRdySig, isRdySigOf]
    | preReadySig i hl => simp [isRdySig, isRdySigOf]
    | readySig i wp hl =>
      simp only [sigIndex] at he
      simp [isRdySig, isRdySigOf, beq_iff_eq, Finset.sum_ite_eq, Finset.mem_range.mpr he]

theorem take_preSig_le (n : Nat) (tr : List LoaderSig) (k : Nat)
    (h1 : ∀ e ∈ tr, sigIndex e < n)
    (h2 : ∀ i < n, tr.countP (isPreSigOf i) = 1) :
    (tr.take k).countP isPreSig ≤ n := by
  have hidx : ∀ e ∈ tr.take k, sigIndex e < n :=
    fun e he => h1 e (List.take_subset k tr he)
  rw [preSig_partition n _ hidx]
  calc ∑ j ∈ Finset.range n, (tr.take k).countP (isPreSigOf j)
      ≤ ∑ _j ∈ Finset.range n, 1 := by
        refine Finset.sum_le_sum fun j hj => ?_
        have h := take_countP_le (isPreSigOf j) tr k
        rw [h2 j (Finset.mem_range.mp hj)] at h
        exact h
    _ = n := by simp

theorem take_rdy_le_pre (n : Nat) (tr : List LoaderSig) (k : Nat)
    (h1 : ∀ e ∈ tr, sigIndex e < n)
    (h4k : ∀ i < n, (tr.take k).countP (isRdySigOf i) ≤ (tr.take k).countP (isPreSigOf i)) :
    (tr.take k).countP isRdySig ≤ (tr.take k).countP isPreSig := by
  have hidx : ∀ e ∈ tr.take k, sigIndex e < n :=
    fun e he => h1 e (List.take_subset k tr he)
  rw [preSig_partition n _ hidx, rdySig_partition n _ hidx]
  exact Finset.sum_le_sum fun j hj => h4k j (Finset.mem_range.mp hj)

theorem take_preSig_lt (n : Nat) (tr : List LoaderSig) (k : Nat) (hk : k < tr.length)
    (h0 : 0 < n)
    (h1 : ∀ e ∈ tr, sigIndex e < n)
    (h2 : ∀ i < n, tr.countP (isPreSigOf i) = 1)
    (he : isPreSig tr[k] = true) :
    (tr.take k).countP isPreSig < n := by
  have hi : sigIndex tr[k] < n := h1 _ (List.getElem_mem hk)
  have hofe : isPreSigOf (sigIndex tr[k]) tr[k] = true := by
    cases h : tr[k] <;> simp_all [isPreSig, isPreSigOf, sigIndex]
  have hzero : (tr.take k).countP (isPreSigOf (sigIndex tr[k])) = 0 := by
    have hle : (tr.take (k + 1)).countP (isPreSigOf (sigIndex tr[k])) ≤ 1 := by
      have h := take_countP_le (isPreSigOf (sigIndex tr[k])) tr (k + 1)
      rw [h2 _ hi] at h
      exact h
    have e1 : ([tr[k]] : List LoaderSig).countP (isPreSigOf (sigIndex tr[k])) = 1 := by
      simp [hofe]
    rw [take_succ_getElem tr k hk, List.countP_append, e1] at hle
    omega
  have hidx : ∀ x ∈ tr.take k, sigIndex x < n :=
    fun x hx => h1 x (List.take_subset k tr hx)
  rw [preSig_partition n _ hidx]
  have hmem : sigIndex tr[k] ∈ Finset.range n := Finset.mem_range.mpr hi
  have hbound : ∑ j ∈ (Finset.range n).erase (sigIndex tr[k]),
      (tr.take k).countP (isPreSigOf j) ≤ n - 1 := by
    calc ∑ j ∈ (Finset.range n).erase (sigIndex tr[k]), (tr.take k).countP (isPreSigOf j)
        ≤ ∑ _j ∈ (Finset.range n).erase (sigIndex tr[k]), 1 := by
          refine Finset.sum_le_sum fun j hj => ?_
          have hjn : j < n := Finset.mem_range.mp (Finset.mem_of_mem_erase hj)
          have h := take_countP_le (isPreSigOf j) tr k
          rw [h2 j hjn] at h
          exact h
      _ = n - 1 := by simp [Finset.card_erase_of_mem hmem]
  have hsum : ∑ j ∈ Finset.range n, (tr.take k).countP (isPreSigOf j)
      = ∑ j ∈ (Finset.range n).erase (sigIndex tr[k]), (tr.take k).countP (isPreSigOf j) := by
    rw [← Finset.sum_erase_add _ _ hmem, hzero, add_zero]
  omega

theorem take_rdySig_lt (n : Nat) (tr : List LoaderSig) (k : Nat) (hk : k < tr.length)
    (h0 : 0 < n)
    (h1 : ∀ e ∈ tr, sigIndex e < n)
    (h3 : ∀ i < n, tr.countP (isRdySigOf i) = 1)
    (he : isRdySig tr[k] = true) :
    (tr.take k).countP isRdySig < n := by
  have hi : sigIndex tr[k] < n := h1 _ (List.getElem_mem hk)
  have hofe : isRdySigOf (sigIndex tr[k]) tr[k] = true := by
    cases h : tr[k] <;> simp_all [isRdySig, isRdySigOf, sigIndex]
  have hzero : (tr.take k).countP (isRdySigOf (sigIndex tr[k])) = 0 := by
    have hle : (tr.take (k + 1)).countP (isRdySigOf (sigIndex tr[k])) ≤ 1 := by
      have h := take_countP_le (isRdySigOf (sigIndex tr[k])) tr (k + 1)
      rw [h3 _ hi] at h
      exact h
    have e1 : ([tr[k]] : List LoaderSig).countP (isRdySigOf (sigIndex tr[k])) = 1 := by
      simp [hofe]
    rw [take_succ_getElem tr k hk, List.countP_append, e1] at hle
    omega
  have hidx : ∀ x ∈ tr.take k, sigIndex x < n :=
    fun x hx => h1 x (List.take_subset k tr hx)
  rw [rdySig_partition n _ hidx]
  have hmem : sigIndex tr[k] ∈ Finset.range n := Finset.mem_range.mpr hi
  have hbound : ∑ j ∈ (Finset.range n).erase (sigIndex tr[k]),
      (tr.take k).countP (isRdySigOf j) ≤ n - 1 := by
    calc ∑ j ∈ (Finset.range n).erase (sigIndex tr[k]), (tr.take k).countP (isRdySigOf j)
        ≤ ∑ _j ∈ (Finset.range n).erase (sigIndex tr[k]), 1 := by
          refine Finset.sum_le_sum fun j hj => ?_
          have hjn : j < n := Finset.mem_range.mp (Finset.mem_of_mem_erase hj)
          have h := take_countP_le (isRdySigOf j) tr k
          rw [h3 j hjn] at h
          exact h
      _ = n - 1 := by simp [Finset.card_erase_of_mem hmem]
  have hsum : ∑ j ∈ Finset.range n, (tr.take k).countP (isRdySigOf j)
      = ∑ j ∈ (Finset.range n).erase (sigIndex tr[k]), (tr.take k).countP (isRdySigOf j) := by
    rw [← Finset.sum_erase_add _ _ hmem, hzero, add_zero]
  omega

theorem take_pre_full (n : Nat) (tr : List LoaderSig) (k : Nat) (hk : k < tr.length)
    (h1 : ∀ e ∈ tr, sigIndex e < n)
    (h3 : ∀ i < n, tr.countP (isRdySigOf i) = 1)
    (h4 : ∀ m ≤ tr.length, ∀ i < n,
      (tr.take m).countP (isRdySigOf i) ≤ (tr.take m).countP (isPreSigOf i))
    (hrdy : isRdySig tr[k] = true)
    (hnpre : isPreSig tr[k] = false)
    (hfull : n ≤ (tr.take k).countP isRdySig + 1) :
    n ≤ (tr.take k).countP isPreSig := by
  have hi : sigIndex tr[k] < n := h1 _ (List.getElem_mem hk)
  have hofr : isRdySigOf (sigIndex tr[k]) tr[k] = true := by
    cases h : tr[k] <;> simp_all [isRdySig, isRdySigOf, sigIndex]
  have hofp : isPreSigOf (sigIndex tr[k]) tr[k] = false := by
    cases h : tr[k] <;> simp_all [isPreSig, isPreSigOf, sigIndex]
  have hzero : (tr.take k).countP (isRdySigOf (sigIndex tr[k])) = 0 := by
    have hle : (tr.take (k + 1)).countP (isRdySigOf (sigIndex tr[k])) ≤ 1 := by
      have h := take_countP_le (isRdySigOf (sigIndex tr[k])) tr (k + 1)
      rw [h3 _ hi] at h
      exact h
    have e1 : ([tr[k]] : List LoaderSig).countP (isRdySigOf (sigIndex tr[k])) = 1 := by
      simp [hofr]
    rw [take_succ_getElem tr k hk, List.countP_append, e1] at hle
    omega
  have hone : 1 ≤ (tr.take k).countP (isPreSigOf (sigIndex tr[k])) := by
    have h41 := h4 (k + 1) hk (sigIndex tr[k]) hi
    have e1 : ([tr[k]] : List LoaderSig).countP (isRdySigOf (sigIndex tr[k])) = 1 := by
      simp [hofr]
    have e2 : ([tr[k]] : List LoaderSig).countP (isPreSigOf (sigIndex tr[k])) = 0 := by
      simp [hofp]
    rw [take_succ_getElem tr k hk, List.countP_append, List.countP_append, e1, e2,
      hzero] at h41
    omega
  have hidx : ∀ x ∈ tr.take k, sigIndex x < n :=
    fun x hx => h1 x (List.take_subset k tr hx)
  have hmem : sigIndex tr[k] ∈ Finset.range n := Finset.mem_range.mpr hi
  rw [preSig_partition n _ hidx]
  rw [rdySig_partition n _ hidx] at hfull
  have hA : ∑ j ∈ (Finset.range n).erase (sigIndex tr[k]), (tr.take k).countP (isRdySigOf j)
      ≤ ∑ j ∈ (Finset.range n).erase (sigIndex tr[k]), (tr.take k).countP (isPreSigOf j) :=
    Finset.sum_le_sum fun j hj =>
      h4 k (le_of_lt hk) j (Finset.mem_range.mp (Finset.mem_of_mem_erase hj))
  have hr : ∑ j ∈ Finset.range n, (tr.take k).countP (isRdySigOf j)
      = ∑ j ∈ (Finset.range n).erase (sigIndex tr[k]),
        (tr.take k).countP (isRdySigOf j) := by
    rw [← Finset.sum_erase_add _ _ hmem, hzero, add_zero]
  have hp : ∑ j ∈ Finset.range n, (tr.take k).countP (isPreSigOf j)
      = ∑ j ∈ (Finset.range n).erase (sigIndex tr[k]), (tr.take k).countP (isPreSigOf j)
        + (tr.take k).countP (isPreSigOf (sigIndex tr[k])) := by
    rw [Finset.sum_erase_add _ _ hmem]
  omega

theorem concat_split {α : Type} {a' l2 body : List α} {x : α}
    (h : a' ++ l2 = body ++ [x]) : a' <+: body ∨ a' = body ++ [x] := by
  cases l2 using List.reverseRecOn with
  | nil => right; simpa using h
  | append_singleton ys y =>
    left
    have h2 : (a' ++ ys) ++ [y] = body ++ [x] := by simpa [List.append_assoc] using h
    obtain ⟨hbody, -⟩ := List.append_inj' h2 rfl
    exact ⟨ys, hbody⟩

theorem milestone_invariant (s : ImReadyManager) (els : List Element) (tr : List LoaderSig)
    (h0 : 0 < els.length)
    (h1 : ∀ e ∈ tr, sigIndex e < els.length)
    (h2 : ∀ i < els.length, tr.countP (isPreSigOf i) = 1)
    (h3 : ∀ i < els.length, tr.countP (isRdySigOf i) = 1)
    (h4 : ∀ m ≤ tr.length, ∀ i < els.length,
      (tr.take m).countP (isRdySigOf i) ≤ (tr.take m).countP (isPreSigOf i)) :
    ∀ k, k ≤ tr.length →
      (runSigs (check s els).state (tr.take k)).1.preReadyCount
        = (tr.take k).countP isPreSig ∧
      (runSigs (check s els).state (tr.take k)).1.readyCount
        = (tr.take k).countP isRdySig ∧
      (runSigs (check s els).state (tr.take k)).1.totalCount = els.length ∧
      (runSigs (check s els).state (tr.take k)).2.countP isBatchPre
        = (if els.length ≤ (tr.take k).countP isPreSig then 1 else 0) ∧
      (runSigs (check s els).state (tr.take k)).2.countP isBatchRdy
        = (if els.length ≤ (tr.take k).countP isRdySig then 1 else 0) ∧
      ∀ l1 l2, (runSigs (check s els).state (tr.take k)).2 = l1 ++ l2 →
        l1.countP isBatchRdy ≤ l1.countP isBatchPre := by
  intro k
  induction k with
  | zero =>
    intro _
    refine ⟨rfl, rfl, ?_, ?_, ?_, ?_⟩
    · simp [check, clear, buildInfos_length, runSigs]
    · simp only [List.take_zero, List.countP_nil]
      have : runSigs (check s els).state [] = ((check s els).state, []) := rfl
      rw [this]
      simp only [List.countP_nil]
      split_ifs <;> omega
    · simp only [List.take_zero, List.countP_nil]
      have : runSigs (check s els).state [] = ((check s els).state, []) := rfl
      rw [this]
      simp only [List.countP_nil]
      split_ifs <;> omega
    · intro l1 l2 hsplit
      have : runSigs (check s els).state (tr.take 0) = ((check s els).state, []) := rfl
      rw [this] at hsplit
      obtain ⟨hl1, -⟩ := List.append_eq_nil.mp hsplit.symm
      subst hl1
      simp
  | succ k ih =>
    intro hk1
    have hk : k < tr.length := hk1
    obtain ⟨ih1, ih2, ih3, ih4, ih5, ih6⟩ := ih (Nat.le_of_lt hk)
    set M := (runSigs (check s els).state (tr.take k)).1 with hM
    set L := (runSigs (check s els).state (tr.take k)).2 with hL
    have hstep : runSigs (check s els).state (tr.take (k + 1))
        = ((handleSig M tr[k]).1, L ++ (handleSig M tr[k]).2) := by
      rw [take_succ_getElem tr k hk, runSigs_append, runSigs_singleton]
    have hcntP : (tr.take (k + 1)).countP isPreSig
        = (tr.take k).countP isPreSig + (if isPreSig tr[k] then 1 else 0) := by
      rw [take_succ_getElem tr k hk, List.countP_append]
      simp [List.countP_cons]
    have hcntR : (tr.take (k + 1)).countP isRdySig
        = (tr.take k).countP isRdySig + (if isRdySig tr[k] then 1 else 0) := by
      rw [take_succ_getElem tr k hk, List.countP_append]
      simp [List.countP_cons]
    have hmono : (tr.take k).countP isRdySig ≤ (tr.take k).countP isPreSig :=
      take_rdy_le_pre els.length tr k h1 (h4 k (le_of_lt hk))
    refine ⟨?_, ?_, ?_, ?_, ?_, ?_⟩
    · rw [hstep]
      rw [handleSig_preReadyCount, ih1, hcntP]
    · rw [hstep]
      rw [handleSig_readyCount, ih2, hcntR]
    · rw [hstep]
      rw [handleSig_totalCount, ih3]
    · rw [hstep]
      rw [List.countP_append, ih4, handleSig_countBatchPre, ih3, ih1, hcntP]
      by_cases hpe : isPreSig tr[k] = true
      · have hlt := take_preSig_lt els.length tr k hk h0 h1 h2 hpe
        simp only [hpe, true_and, if_true]
        split_ifs <;> omega
      · simp only [hpe, false_and, if_false]
        simp only [Bool.not_eq_true] at hpe
        simp [hpe]
    · rw [hstep]
      rw [List.countP_append, ih5, handleSig_countBatchRdy, ih3, ih2, hcntR]
      by_cases hre : isRdySig tr[k] = true
      · have hlt := take_rdySig_lt els.length tr k hk h0 h1 h3 hre
        simp only [hre, true_and, if_true]
        split_ifs <;> omega
      · simp only [hre, false_and, if_false]
        simp only [Bool.not_eq_true] at hre
        simp [hre]
    · intro l1 l2 hsplit
      rw [hstep] at hsplit
      rcases List.append_eq_append_iff.mp hsplit with ⟨a2, hl1, hE⟩ | ⟨c2, hLd, -⟩
      · subst hl1
        have hmonoInd : L.countP isBatchRdy ≤ L.countP isBatchPre := by
          rw [ih4, ih5]
          split_ifs <;> omega
        obtain ⟨B, T, hBT, hBrdy, hTlen⟩ := handleSig_rdy_decomp M tr[k]
        rw [hBT] at hE
        have hdone0 : a2.countP isBatchRdy = 0 →
            (L ++ a2).countP isBatchRdy ≤ (L ++ a2).countP isBatchPre := by
          intro hz
          rw [List.countP_append, List.countP_append, hz, add_zero]
          exact le_trans hmonoInd (Nat.le_add_right _ _)
        rcases List.append_eq_append_iff.mp hE with ⟨w, ha2, hTw⟩ | ⟨w, hBw, -⟩
        · cases T with
          | nil =>
            obtain ⟨hw, -⟩ := List.append_eq_nil.mp hTw.symm
            subst hw
            refine hdone0 ?_
            rw [List.append_nil] at ha2
            subst ha2
            exact hBrdy
          | cons x T2 =>
            have hT2 : T2 = [] := by
              simp only [List.length_cons] at hTlen
              exact List.length_eq_zero.mp (by omega)
            subst hT2
            cases w with
            | nil =>
              refine hdone0 ?_
              rw [List.append_nil] at ha2
              subst ha2
              exact hBrdy
            | cons y w2 =>
              have hyx : y = x ∧ w2 ++ l2 = [] := by
                have h9 := hTw.symm
                simp only [List.cons_append, List.cons.injEq] at h9
                exact ⟨h9.1, h9.2⟩
              obtain ⟨rfl, hw2⟩ := hyx
              obtain ⟨hw2nil, hl2nil⟩ := List.append_eq_nil.mp hw2
              subst hw2nil
              subst hl2nil
              subst ha2
              rw [← hBT]
              rw [List.countP_append, List.countP_append, ih4, ih5,
                handleSig_countBatchPre, handleSig_countBatchRdy, ih3, ih1, ih2]
              by_cases hre : isRdySig tr[k] = true
              · have hrlt := take_rdySig_lt els.length tr k hk h0 h1 h3 hre
                by_cases hful : els.length ≤ (tr.take k).countP isRdySig + 1
                · by_cases hpe : isPreSig tr[k] = true
                  · have hup := take_rdy_le_pre els.length tr (k + 1) h1 (h4 (k + 1) hk)
                    rw [hcntP, hcntR] at hup
                    simp only [hpe, hre, if_true] at hup
                    simp only [hpe, hre, true_and]
                    split_ifs <;> omega
                  · have hpf : isPreSig tr[k] = false := by
                      simpa using hpe
                    have hfullpre := take_pre_full els.length tr k hk h1 h3 h4 hre hpf hful
                    simp only [hpe, hre, true_and, false_and, if_false]
                    split_ifs <;> omega
                · simp only [hre, true_and]
                  split_ifs <;> omega
              · have hrf : isRdySig tr[k] = false := by simpa using hre
                simp only [hrf, Bool.false_eq_true, false_and, if_false, add_zero]
                split_ifs <;> omega
        · refine hdone0 ?_
          have hsub := (List.IsPrefix.sublist ⟨w, hBw.symm⟩ : List.Sublist a2 B)
          have hle := hsub.countP_le isBatchRdy
          omega
      · exact ih6 l1 c2 hLd

/-- C1 (amended): for a non-empty batch, if every slot's loader delivers
exactly one pre-ready signal (a separate preReady, or withPreReady on its
ready, never both), exactly one ready signal, and the pre-ready signal
never arrives after the ready signal (the prefix-count hypothesis), then
the batch preReady event is triggered exactly once, the batch ready event
exactly once, and at no cut of the triggered-event stream have more ready
events been seen than preReady events, so preReady is never later than
ready; when both are triggered by one ready handler, preReady precedes. -/
theorem preReady_once_no_later_than_ready (s : ImReadyManager) (els : List Element)
    (tr : List LoaderSig)
    (h0 : 0 < els.length)
    (h1 : ∀ e ∈ tr, sigIndex e < els.length)
    (h2 : ∀ i < els.length, tr.countP (isPreSigOf i) = 1)
    (h3 : ∀ i < els.length, tr.countP (isRdySigOf i) = 1)
    (h4 : ∀ m ≤ tr.length, ∀ i < els.length,
      (tr.take m).countP (isRdySigOf i) ≤ (tr.take m).countP (isPreSigOf i)) :
    FiresOnceOrdered (runSigs (check s els).state tr).2 := by
  obtain ⟨-, -, -, h5, h6, h7⟩ :=
    milestone_invariant s els tr h0 h1 h2 h3 h4 tr.length le_rfl
  rw [List.take_length] at h5 h6 h7
  have hfullP : tr.countP isPreSig = els.length := by
    rw [preSig_partition els.length tr h1]
    calc ∑ j ∈ Finset.range els.length, tr.countP (isPreSigOf j)
        = ∑ _j ∈ Finset.range els.length, 1 :=
          Finset.sum_congr rfl fun j hj => h2 j (Finset.mem_range.mp hj)
      _ = els.length := by simp
  have hfullR : tr.countP isRdySig = els.length := by
    rw [rdySig_partition els.length tr h1]
    calc ∑ j ∈ Finset.range els.length, tr.countP (isRdySigOf j)
        = ∑ _j ∈ Finset.range els.length, 1 :=
          Finset.sum_congr rfl fun j hj => h3 j (Finset.mem_range.mp hj)
      _ = els.length := by simp
  refine ⟨?_, ?_, h7⟩
  · rw [h5, hfullP]
    simp
  · rw [h6, hfullR]
    simp

/-- C1 (counterexample to the claim as stated): a one-element batch whose
loader emits only a ready signal with withPreReady = false satisfies the
claim's stated assumptions (preReady emitted at most once, ready exactly
once, withPreReady only without a separate preReady), yet the batch
preReady event is triggered zero times, not exactly once. -/
theorem preReady_exactly_once_counterexample :
    (∀ i < ([elA] : List Element).length,
      ([LoaderSig.readySig 0 false false] : List LoaderSig).countP (isSepPreSigOf i) ≤ 1) ∧
    (∀ i < ([elA] : List Element).length,
      ([LoaderSig.readySig 0 false false] : List LoaderSig).countP (isRdySigOf i) = 1) ∧
    (∀ i < ([elA] : List Element).length,
      1 ≤ ([LoaderSig.readySig 0 false false] : List LoaderSig).countP
          (fun e => isRdySigOf i e && isPreSig e) →
        ([LoaderSig.readySig 0 false false] : List LoaderSig).countP (isSepPreSigOf i) = 0) ∧
    (runSigs (check (initManager {}) [elA]).state
      [LoaderSig.readySig 0 false false]).2.countP isBatchPre = 0 := by
  decide

/-- C1 witness: the amended theorem applied to a one-element batch whose
loader emits ready with withPreReady. -/
theorem preReady_once_no_later_than_ready_witness :
    0 < ([elA] : List Element).length ∧
    (∀ e ∈ ([LoaderSig.readySig 0 true false] : List LoaderSig),
      sigIndex e < ([elA] : List Element).length) ∧
    (∀ i < ([elA] : List Element).length,
      ([LoaderSig.readySig 0 true false] : List LoaderSig).countP (isPreSigOf i) = 1) ∧
    (∀ i < ([elA] : List Element).length,
      ([LoaderSig.readySig 0 true false] : List LoaderSig).countP (isRdySigOf i) = 1) ∧
    (∀ m ≤ ([LoaderSig.readySig 0 true false] : List LoaderSig).length,
      ∀ i < ([elA] : List Element).length,
        (([LoaderSig.readySig 0 true false] : List LoaderSig).take m).countP (isRdySigOf i)
          ≤ (([LoaderSig.readySig 0 true false] : List LoaderSig).take m).countP (isPreSigOf i)) ∧
    FiresOnceOrdered (runSigs (check (initManager {}) [elA]).state
      [LoaderSig.readySig 0 true false]).2 :=
  ⟨by decide, by decide, by decide, by decide, by decide,
    preReady_once_no_later_than_ready (initManager {}) [elA]
      [LoaderSig.readySig 0 true false]
      (by decide) (by decide) (by decide) (by decide) (by decide)⟩

/-- C10: on every state whose info array is empty (a fresh constructor
state, after clear() or destroy(), or after check() with an empty
collection) both isPreReady() and isReady() return true vacuously, and
the constructor initialises isPreReadyOver to true. -/
theorem empty_array_vacuously_ready (p : InitOptions) (s : ImReadyManager) :
    ImReadyManager.isPreReady (initManager p) = true ∧
    ImReadyManager.isReady (initManager p) = true ∧
    (initManager p).isPreReadyOver = true ∧
    ImReadyManager.isPreReady (clear s).1 = true ∧
    ImReadyManager.isReady (clear s).1 = true ∧
    ImReadyManager.isPreReady (destroy s).1 = true ∧
    ImReadyManager.isReady (destroy s).1 = true ∧
    ImReadyManager.isPreReady (check s []).state = true ∧
    ImReadyManager.isReady (check s []).state = true := by
  simp [initManager, ImReadyManager.isPreReady, ImReadyManager.isReady,
    clear, destroy, check, buildInfos]

end ImReady
